import Mathlib

/-!
Shallow embedding of the task-collection engine of the todo-vanilla
repository (src/app.js, with src/unnamed/part_000 a near-duplicate
variant), and proofs about the claims of its specification.

Modelling conventions:

* A `Task` mirrors the record `{id,title,due,completed,createdAt,order}`
  (src/app.js line 45).  `due` and `createdAt` are the stored strings,
  with `""` denoting an absent due date exactly as in the source.
  `order` is an `Int` (the JS number is only ever an integer here).
* Storage (`localStorage` under the single key `LS_KEY`) is modelled at
  the JSON-value level by `Raw`: the cell is absent/empty, holds
  unparseable text, or holds a JSON value `JValue`.  `JSON.parse` after
  `JSON.stringify` is the identity on the JSON values produced by
  `encodeTask` (strings, booleans, exact integers), so `saveTasks`
  stores the encoded value directly.
* `Math.random()/Date.now()`-based `uid()` (line 9) and
  `new Date(...).getTime()` are external nondeterminism; they are
  passed as explicit parameters (an id supply `Nat → String`, a clock
  string `now`, and a date-parsing function `getTime : String → Int`).
* `Array.prototype.sort` is stable (ES2019) and all comparators used by
  the source are consistent total preorders on the values they are
  applied to, so a sorted result is the unique stable sort; it is
  modelled by `List.insertionSort`, which is stable.  A JS comparator
  `c` corresponds to the relation `fun a b => ¬(c a b > 0)`; for the
  comparator `(a,b) => key a - key b` over `WithTop Int` keys this
  relation is exactly `key a ≤ key b` (also at `⊤ - ⊤`, where JS yields
  `NaN`, which the sort treats as a tie, matching `⊤ ≤ ⊤`).
* String helpers (`trim`, `toLowerCase`, `includes`) are implemented on
  the character list of the string so that every definition evaluates
  by kernel reduction.
-/

namespace Todo

/-- JS `String.prototype.trim`: strip whitespace from both ends. -/
def jsTrim (s : String) : String :=
  ⟨((s.data.dropWhile Char.isWhitespace).reverse.dropWhile Char.isWhitespace).reverse⟩

/-- JS `String.prototype.toLowerCase` (ASCII-adequate for this app). -/
def jsToLower (s : String) : String :=
  ⟨s.data.map Char.toLower⟩

/-- `listPre n h` is true when `n` is an initial segment of `h`. -/
def listPre : List Char → List Char → Bool
  | [], _ => true
  | _ :: _, [] => false
  | a :: as, b :: bs => a = b && listPre as bs

/-- JS `String.prototype.includes` on character lists: `needle` occurs
contiguously inside `hay`. -/
def hasSub (needle : List Char) : List Char → Bool
  | [] => listPre needle []
  | hay@(_ :: rest) => listPre needle hay || hasSub needle rest

/-- The task record of src/app.js line 45:
`{id, title, due, completed, createdAt, order}`; `due = ""` means no
due date, as in the source. -/
structure Task where
  id : String
  title : String
  due : String
  completed : Bool
  createdAt : String
  order : Int
  deriving Repr, DecidableEq, Inhabited

/-- The view state of src/app.js lines 46-50:
`{search, filter, sort}` with the source's string-valued modes
(`filter ∈ {"all","done","todo"}`,
`sort ∈ {"manual","dueAsc","dueDesc","createdAsc","createdDesc"}`;
any other sort value falls back to manual, as in the `switch`). -/
structure Query where
  search : String
  filter : String
  sort : String
  deriving Repr, DecidableEq

/-- JSON values, the possible results of `JSON.parse`. -/
inductive JValue where
  | null
  | bool (b : Bool)
  | num (n : Int)
  | str (s : String)
  | arr (elems : List JValue)
  | obj (fields : List (String × JValue))
  deriving Repr, Inhabited

/-- JS property access `t.k` as used by `loadTasks`: a missing key, or a
base value that is not an object, yields a falsy non-number
(`undefined`), modelled as `null`.  (Access on a `null` base throws; the
caller handles that case separately.) -/
def jGet (j : JValue) (k : String) : JValue :=
  match j with
  | .obj fields =>
    match fields.lookup k with
    | some v => v
    | none => .null
  | _ => .null

/-- JS truthiness of a JSON value. -/
def truthy : JValue → Bool
  | .null => false
  | .bool b => b
  | .num n => n != 0
  | .str s => s != ""
  | .arr _ => true
  | .obj _ => true

/-- JS `String(v)` coercion on JSON values. -/
def jsToString : JValue → String
  | .null => "null"
  | .bool b => if b then "true" else "false"
  | .num n => toString n
  | .str s => s
  | .arr elems => String.intercalate "," (elems.attach.map (fun e => jsToString e.1))
  | .obj _ => "[object Object]"
  decreasing_by
    have := List.sizeOf_lt_of_mem e.2
    simp only [JValue.arr.sizeOf_spec]
    omega

/-- JS `a || b`. -/
def orTruthy (v fallback : JValue) : JValue :=
  if truthy v then v else fallback

/-- `isNull j` is true exactly on JSON `null` (property access on such an
element throws inside `loadTasks`' `map`). -/
def isNull : JValue → Bool
  | .null => true
  | _ => false

/-- A record as produced by `loadTasks`' normalization (src/app.js lines
29-36).  `id`, `due` and `createdAt` keep whatever truthy JSON value was
stored (the source does not coerce them), `title` is coerced to a
trimmed string, `completed` to a boolean, `order` to a number. -/
structure RawTask where
  id : JValue
  title : String
  due : JValue
  completed : Bool
  createdAt : JValue
  order : Int
  deriving Repr, Inhabited

/-- One step of `parsed.map((t, i) => ({...}))` (src/app.js lines 29-36):
`freshId` stands for the `uid()` call, `now` for
`new Date().toISOString()`, `i` is the record's position. -/
def normalizeRecord (freshId : String) (now : String) (i : Nat) (t : JValue) : RawTask :=
  { id := orTruthy (jGet t "id") (.str freshId)
  , title := jsTrim (jsToString (orTruthy (jGet t "title") (.str "")))
  , due := orTruthy (jGet t "due") (.str "")
  , completed := truthy (jGet t "completed")
  , createdAt := orTruthy (jGet t "createdAt") (.str now)
  , order :=
      match jGet t "order" with
      | .num n => n
      | _ => (i : Int) }

/-- The indexed map of src/app.js line 29, with the `uid()` supply
indexed by record position. -/
def loadMap (freshId : Nat → String) (now : String) : Nat → List JValue → List RawTask
  | _, [] => []
  | i, t :: ts => normalizeRecord (freshId i) now i t :: loadMap freshId now (i + 1) ts

/-- The state of the `localStorage` cell under `LS_KEY`: absent (or the
empty string, both falsy at line 26), text that `JSON.parse` rejects, or
a parsed JSON value. -/
inductive Raw where
  | absent
  | invalid
  | val (j : JValue)
  deriving Repr

/-- `loadTasks` (src/app.js lines 23-40).  Absent/empty cell, a parse
failure, and a non-array parse all yield `[]`; an array is mapped
through `normalizeRecord` — except that a `null` element makes the
property access `t.id` throw inside the `try`, so the whole call falls
back to `[]`. -/
def loadTasks (freshId : Nat → String) (now : String) (raw : Raw) : List RawTask :=
  match raw with
  | .absent => []
  | .invalid => []
  | .val j =>
    match j with
    | .arr elems => if elems.any isNull then [] else loadMap freshId now 0 elems
    | _ => []

/-- `JSON.stringify` of one task: an object with the fields in insertion
order. -/
def encodeTask (t : Task) : JValue :=
  .obj [("id", .str t.id), ("title", .str t.title), ("due", .str t.due),
        ("completed", .bool t.completed), ("createdAt", .str t.createdAt),
        ("order", .num t.order)]

/-- `saveTasks` (src/app.js lines 19-21): overwrite the cell with the
serialized collection. -/
def saveTasks (tasks : List Task) : Raw :=
  .val (.arr (tasks.map encodeTask))

/-- The `RawTask` a well-formed `Task` should come back as after a
save/load round trip. -/
def rawOfTask (t : Task) : RawTask :=
  { id := .str t.id, title := t.title, due := .str t.due,
    completed := t.completed, createdAt := .str t.createdAt, order := t.order }

/-- `loadTasks` applied to a cell just written by `saveTasks`. -/
def saveLoad (freshId : Nat → String) (now : String) (tasks : List Task) : List RawTask :=
  loadTasks freshId now (saveTasks tasks)

/-- The mutable globals of the app: the in-memory `tasks` array and the
`localStorage` cell, which every mutating handler rewrites via
`saveTasks`. -/
structure AppState where
  tasks : List Task
  stored : Raw
  deriving Repr

/-- Outcome of a UI handler that validates its input: either the new
state, or the rejection path (`titleInput.focus(); return;`), which
leaves the state exactly as it was — carried in the constructor. -/
inductive OpResult where
  | ok (s : AppState)
  | validationError (s : AppState)
  deriving Repr

/-- `tasks.length ? Math.max(...tasks.map(x => x.order)) + 1 : 0`
(src/app.js line 201). -/
def nextOrder (tasks : List Task) : Int :=
  match tasks with
  | [] => 0
  | t :: ts => (ts.foldl (fun m x => max m x.order) t.order) + 1

/-- `addTask` (src/app.js lines 196-206): append the new record and
persist.  `id` stands for the `uid()` result and `now` for
`new Date().toISOString()`. -/
def addTask (id now title due : String) (tasks : List Task) : List Task :=
  tasks ++ [{ id := id, title := title, due := due, completed := false,
              createdAt := now, order := nextOrder tasks }]

def addTaskApp (id now title due : String) (s : AppState) : AppState :=
  let ts := addTask id now title due s.tasks
  { tasks := ts, stored := saveTasks ts }

/-- The Add-button handler (src/app.js lines 176-182): trim the title,
reject when it is empty without touching anything, otherwise `addTask`.
The date input contributes `dateInput.value || ""`, which on strings is
the identity. -/
def addBtnClick (id now rawTitle rawDue : String) (s : AppState) : OpResult :=
  let title := jsTrim rawTitle
  let due := rawDue
  if title = "" then .validationError s
  else .ok (addTaskApp id now title due s)

/-- A patch as passed to `updateTask` by the source's two call sites:
`{completed}` from the checkbox and `{title, due}` from the edit form —
only these three fields ever occur in a patch. -/
structure Patch where
  title : Option String
  due : Option String
  completed : Option Bool
  deriving Repr, DecidableEq

/-- The object spread `{...tasks[idx], ...patch}` for the patches that
actually occur. -/
def applyPatch (t : Task) (p : Patch) : Task :=
  { t with
    title := p.title.getD t.title
    due := p.due.getD t.due
    completed := p.completed.getD t.completed }

/-- `updateTask` (src/app.js lines 209-215): `findIndex` by id; absent
id is a silent no-op (modelled as `none`, the NotFound signal — nothing
is written); otherwise merge the patch and persist. -/
def updateTask (id : String) (p : Patch) (tasks : List Task) : Option (List Task) :=
  match tasks.findIdx? (fun t => t.id == id) with
  | none => none
  | some i => some (tasks.set i (applyPatch (tasks.getD i default) p))

def updateApp (id : String) (p : Patch) (s : AppState) : AppState :=
  match updateTask id p s.tasks with
  | none => s
  | some ts => { tasks := ts, stored := saveTasks ts }

/-- The edit form's Save button (src/app.js lines 325-335): trim the
entered title, reject when empty without touching anything, otherwise
`updateTask` with the trimmed title and the date input. -/
def saveEditClick (id rawTitle rawDue : String) (s : AppState) : OpResult :=
  let newTitle := jsTrim rawTitle
  if newTitle = "" then .validationError s
  else .ok (updateApp id { title := some newTitle, due := some rawDue, completed := none } s)

/-- The `forEach((t, i) => t.order = i)` pass of `reindexOrder`,
starting at index `i`. -/
def assignFrom : Nat → List Task → List Task
  | _, [] => []
  | i, t :: ts => { t with order := (i : Int) } :: assignFrom (i + 1) ts

/-- `reindexOrder` (src/app.js lines 224-226): stable-sort the array by
`order` (in place) and overwrite each `order` with its index. -/
def reindexOrder (tasks : List Task) : List Task :=
  assignFrom 0 (tasks.insertionSort (fun a b => a.order ≤ b.order))

/-- `deleteTask` (src/app.js lines 217-222): filter out the id (a no-op
when absent), reindex, persist. -/
def deleteTaskApp (id : String) (s : AppState) : AppState :=
  let ts := reindexOrder (s.tasks.filter (fun t => t.id != id))
  { tasks := ts, stored := saveTasks ts }

/-- The Clear-Completed handler (src/app.js lines 187-191): when no task
is completed it returns immediately (nothing is filtered, reindexed or
persisted); otherwise keep the uncompleted tasks, reindex, persist. -/
def clearCompletedClick (s : AppState) : AppState :=
  if s.tasks.any (fun t => t.completed) then
    let ts := reindexOrder (s.tasks.filter (fun t => !t.completed))
    { tasks := ts, stored := saveTasks ts }
  else s

/-- One step of the dragend loop (src/app.js lines 381-384): set the
order of the first task matching `id` to `idx`; no match, no change. -/
def setOrderFirst (id : String) (idx : Int) : List Task → List Task
  | [] => []
  | t :: ts =>
    if t.id = id then { t with order := idx } :: ts
    else t :: setOrderFirst id idx ts

/-- `ids.forEach((id, index) => ...)` starting at index `k`. -/
def reorderFrom : Nat → List String → List Task → List Task
  | _, [], ts => ts
  | k, id :: ids, ts => reorderFrom (k + 1) ids (setOrderFirst id (k : Int) ts)

/-- The order-assignment loop of the dragend handler (src/app.js lines
380-384): for each id of the sequence, in order, assign its index to the
matching task when there is one. -/
def reorder (ids : List String) (tasks : List Task) : List Task :=
  reorderFrom 0 ids tasks

/-- The dragend handler's state effect (src/app.js lines 376-388):
apply the order assignments, then persist. -/
def dragendApp (ids : List String) (s : AppState) : AppState :=
  let ts := reorder ids s.tasks
  { tasks := ts, stored := saveTasks ts }

/-- `t.title.toLowerCase().includes(state.search)` (line 230); the input
handler stores `searchInput.value.toLowerCase()` into `state.search`. -/
def searchMatch (search : String) (t : Task) : Bool :=
  hasSub search.data (jsToLower t.title).data

/-- The due-date sort key (lines 235-236): an absent due date (`""`,
falsy) compares as `Infinity`, i.e. `⊤`; `getTime` stands for
`new Date(s).getTime()` on the date strings the app stores. -/
def dueKey (getTime : String → Int) (t : Task) : WithTop Int :=
  if t.due = "" then ⊤ else ((getTime t.due : Int) : WithTop Int)

/-- `getFilteredSortedTasks` (src/app.js lines 228-250): search filter,
status filter, then a stable sort picked by `state.sort`; `dueDesc` and
`createdDesc` use the reversed comparator (`byDue(b, a)`), every
unrecognized mode falls back to the manual (by-`order`) sort. -/
def getFilteredSortedTasks (getTime : String → Int) (state : Query) (tasks : List Task) :
    List Task :=
  let arr := tasks
  let arr := if state.search ≠ "" then arr.filter (searchMatch state.search) else arr
  let arr := if state.filter = "done" then arr.filter (fun t => t.completed) else arr
  let arr := if state.filter = "todo" then arr.filter (fun t => !t.completed) else arr
  if state.sort = "manual" then arr.insertionSort (fun a b => a.order ≤ b.order)
  else if state.sort = "dueAsc" then
    arr.insertionSort (fun a b => dueKey getTime a ≤ dueKey getTime b)
  else if state.sort = "dueDesc" then
    arr.insertionSort (fun a b => dueKey getTime b ≤ dueKey getTime a)
  else if state.sort = "createdAsc" then
    arr.insertionSort (fun a b => getTime a.createdAt ≤ getTime b.createdAt)
  else if state.sort = "createdDesc" then
    arr.insertionSort (fun a b => getTime b.createdAt ≤ getTime a.createdAt)
  else arr.insertionSort (fun a b => a.order ≤ b.order)

/-- A sequence of Add-Task operations (each through `addTaskApp`, i.e. a
successful create), with the `uid()` supply indexed by call number. -/
def createMany (ids : Nat → String) (now : String) : Nat → List (String × String) → AppState → AppState
  | _, [], s => s
  | k, (title, due) :: rest, s =>
    createMany ids now (k + 1) rest (addTaskApp (ids k) now title due s)

/-- A task with its `order` field forgotten (set to `0`): the identity
of a record independent of its position value. -/
def strip (t : Task) : Task :=
  { t with order := 0 }

/-- Sample dated task used in concrete instances. -/
def tDated : Task :=
  { id := "1", title := "a", due := "2024-01-10", completed := false,
    createdAt := "c1", order := 0 }

/-- Sample undated task used in concrete instances. -/
def tUndated : Task :=
  { id := "2", title := "b", due := "", completed := false,
    createdAt := "c2", order := 1 }

/-!  ## C1: placement of undated tasks under the due-date sorts  -/

/-- C1 counterexample: `dueDesc` sorts with the exactly reversed
comparator, so the absent-due key `Infinity` comes first, not last: with
one dated and one undated task the undated task precedes the dated one
in the projection, refuting "every task with no due date appears after
every task that has a due date ... under sort mode dueDescending". -/
theorem c1_counterexample :
    ¬ (getFilteredSortedTasks (fun _ => 0)
        { search := "", filter := "all", sort := "dueDesc" }
        [tDated, tUndated]).Pairwise (fun a b => a.due = "" → b.due = "") := by
  decide

/-- C1 (amended): an absent due date compares as positive infinity, so
every undated task appears after every dated task under `dueAsc`; under
`dueDesc` — the exactly reversed comparator — every undated task
appears before every dated task. -/
theorem c1_amended (getTime : String → Int) (q : Query) (tasks : List Task) :
    (q.sort = "dueAsc" →
      (getFilteredSortedTasks getTime q tasks).Pairwise
        (fun a b => a.due = "" → b.due = "")) ∧
    (q.sort = "dueDesc" →
      (getFilteredSortedTasks getTime q tasks).Pairwise
        (fun a b => b.due = "" → a.due = "")) := by
  have keyAsc : ∀ l : List Task,
      (l.insertionSort (fun a b => dueKey getTime a ≤ dueKey getTime b)).Pairwise
        (fun a b => a.due = "" → b.due = "") := by
    intro l
    haveI : IsTotal Task (fun a b => dueKey getTime a ≤ dueKey getTime b) :=
      ⟨fun a b => le_total _ _⟩
    haveI : IsTrans Task (fun a b => dueKey getTime a ≤ dueKey getTime b) :=
      ⟨fun a b c hab hbc => le_trans hab hbc⟩
    refine (List.sorted_insertionSort _ l).imp ?_
    intro a b hab hdue
    by_contra hb
    have ha : dueKey getTime a = ⊤ := by simp [dueKey, hdue]
    have hbk : dueKey getTime b = ⊤ := top_le_iff.mp (ha ▸ hab)
    simp [dueKey, hb] at hbk
  have keyDesc : ∀ l : List Task,
      (l.insertionSort (fun a b => dueKey getTime b ≤ dueKey getTime a)).Pairwise
        (fun a b => b.due = "" → a.due = "") := by
    intro l
    haveI : IsTotal Task (fun a b => dueKey getTime b ≤ dueKey getTime a) :=
      ⟨fun a b => (le_total _ _).symm⟩
    haveI : IsTrans Task (fun a b => dueKey getTime b ≤ dueKey getTime a) :=
      ⟨fun a b c hab hbc => le_trans hbc hab⟩
    refine (List.sorted_insertionSort _ l).imp ?_
    intro a b hab hdue
    by_contra ha
    have hbk : dueKey getTime b = ⊤ := by simp [dueKey, hdue]
    have hak : dueKey getTime a = ⊤ := top_le_iff.mp (hbk ▸ hab)
    simp [dueKey, ha] at hak
  constructor
  · intro h
    unfold getFilteredSortedTasks
    rw [h]
    norm_num
    exact keyAsc _
  · intro h
    unfold getFilteredSortedTasks
    rw [h]
    norm_num
    exact keyDesc _

/-- Concrete instance of `c1_amended`: sorting a dated and an undated
task with `dueAsc` keeps undated tasks last. -/
theorem c1_amended_witness :
    (getFilteredSortedTasks (fun _ => 0)
      { search := "", filter := "all", sort := "dueAsc" }
      [tUndated, tDated]).Pairwise (fun a b => a.due = "" → b.due = "") :=
  (c1_amended (fun _ => 0) { search := "", filter := "all", sort := "dueAsc" }
    [tUndated, tDated]).1 rfl

/-!  ## C3: empty-title validation on create and on title edit  -/

/-- C3: a create whose title trims to empty and a title edit whose title
trims to empty are both rejected on the validation path: the handler
signals the rejection and returns with the application state — task
collection and storage cell — exactly as it was, so no task is added,
no field is modified, and nothing is persisted. -/
theorem c3_validation_rejects (id now rawTitle rawDue : String) (s : AppState)
    (h : jsTrim rawTitle = "") :
    addBtnClick id now rawTitle rawDue s = .validationError s ∧
    saveEditClick id rawTitle rawDue s = .validationError s := by
  constructor
  · unfold addBtnClick
    simp [h]
  · unfold saveEditClick
    simp [h]

/-- Concrete instance of `c3_validation_rejects`: the whitespace title
`"  "` is rejected by the Add handler with the state untouched. -/
theorem c3_validation_rejects_witness :
    jsTrim "  " = "" ∧
    addBtnClick "u1" "t1" "  " "" { tasks := [], stored := .absent } =
      .validationError { tasks := [], stored := .absent } :=
  ⟨by decide,
   (c3_validation_rejects "u1" "t1" "  " "" { tasks := [], stored := .absent }
     (by decide)).1⟩

/-!  ## Reindexing machinery shared by the delete / clearCompleted claims  -/

theorem assignFrom_length (i : Nat) (l : List Task) :
    (assignFrom i l).length = l.length := by
  induction l generalizing i with
  | nil => rfl
  | cons t ts ih => simp [assignFrom, ih]

theorem assignFrom_map_strip (i : Nat) (l : List Task) :
    (assignFrom i l).map strip = l.map strip := by
  induction l generalizing i with
  | nil => rfl
  | cons t ts ih => simp [assignFrom, strip, ih]

theorem assignFrom_map_order (i : Nat) (l : List Task) :
    (assignFrom i l).map Task.order =
      (List.range' i l.length).map (fun k : Nat => (k : Int)) := by
  induction l generalizing i with
  | nil => rfl
  | cons t ts ih => simp [assignFrom, List.range'_succ, ih]

/-- A pair of positions `i < j` of a list is a two-element sublist. -/
theorem pair_sublist_of_lt {α : Type} :
    ∀ (l : List α) (i j : Nat) (hi : i < l.length) (hj : j < l.length), i < j →
      List.Sublist [l.get ⟨i, hi⟩, l.get ⟨j, hj⟩] l := by
  intro l
  induction l with
  | nil => intro i j hi _ _; simp at hi
  | cons x xs ih =>
    intro i j hi hj hij
    cases i with
    | zero =>
      cases j with
      | zero => omega
      | succ j =>
        have hj2 : j < xs.length := by simpa using hj
        exact List.Sublist.cons₂ x (List.singleton_sublist.mpr (xs.get_mem j hj2))
    | succ i =>
      cases j with
      | zero => omega
      | succ j =>
        exact (ih i j (by simpa using hi) (by simpa using hj) (by omega)).cons x

/-- What reindexing promises: the new list carries the orders `0..N-1`
positionally, holds the same records (up to the rewritten `order`
field), keeps every prior-array-ordered pair whose orders were already
non-decreasing in that relative order (stability), and puts any record
of strictly smaller prior order before one of larger prior order. -/
def ReindexSpec (old new : List Task) : Prop :=
  new.length = old.length ∧
  new.map Task.order = (List.range old.length).map (fun k : Nat => (k : Int)) ∧
  List.Perm (new.map strip) (old.map strip) ∧
  (∀ a b : Task, List.Sublist [a, b] old → a.order ≤ b.order →
    List.Sublist [strip a, strip b] (new.map strip)) ∧
  (∀ a b : Task, a ∈ old → b ∈ old → a.order < b.order →
    List.Sublist [strip a, strip b] (new.map strip))

theorem reindexSpec_reindexOrder (old : List Task) : ReindexSpec old (reindexOrder old) := by
  haveI : IsTotal Task (fun a b : Task => a.order ≤ b.order) := ⟨fun a b => le_total _ _⟩
  haveI : IsTrans Task (fun a b : Task => a.order ≤ b.order) :=
    ⟨fun a b c hab hbc => le_trans hab hbc⟩
  have hlen : (reindexOrder old).length = old.length := by
    unfold reindexOrder
    rw [assignFrom_length, List.length_insertionSort]
  have hstrip : (reindexOrder old).map strip =
      (old.insertionSort (fun a b => a.order ≤ b.order)).map strip :=
    assignFrom_map_strip 0 _
  refine ⟨hlen, ?_, ?_, ?_, ?_⟩
  · unfold reindexOrder
    rw [assignFrom_map_order, List.length_insertionSort, List.range_eq_range']
  · rw [hstrip]
    exact (List.perm_insertionSort _ old).map strip
  · intro a b hsub hle
    rw [hstrip]
    have hpair : List.Sublist [a, b] (old.insertionSort (fun x y : Task => x.order ≤ y.order)) :=
      List.pair_sublist_insertionSort hle hsub
    exact hpair.map strip
  · intro a b ha hb hlt
    rw [hstrip]
    have ha2 : a ∈ old.insertionSort (fun a b => a.order ≤ b.order) :=
      (List.mem_insertionSort _).mpr ha
    have hb2 : b ∈ old.insertionSort (fun a b => a.order ≤ b.order) :=
      (List.mem_insertionSort _).mpr hb
    obtain ⟨ia, hga⟩ := List.mem_iff_get.mp ha2
    obtain ⟨ib, hgb⟩ := List.mem_iff_get.mp hb2
    have hsorted := List.sorted_insertionSort (fun a b : Task => a.order ≤ b.order) old
    have hij : (ia : Nat) < (ib : Nat) := by
      rcases lt_trichotomy (ia : Nat) (ib : Nat) with h | h | h
      · exact h
      · exfalso
        have : a = b := by
          rw [← hga, ← hgb]
          congr 1
          exact Fin.ext h
        rw [this] at hlt
        exact lt_irrefl _ hlt
      · exfalso
        have := List.pairwise_iff_get.mp hsorted ib ia (by simpa using h)
        rw [hga, hgb] at this
        omega
    have := pair_sublist_of_lt _ (ia : Nat) (ib : Nat) ia.isLt ib.isLt hij
    rw [Fin.eta, Fin.eta, hga, hgb] at this
    exact this.map strip

/-- The two filtered lists of a list partition its length. -/
theorem filter_partition_length (p : Task → Bool) (l : List Task) :
    (l.filter p).length + (l.filter (fun t => !p t)).length = l.length := by
  induction l with
  | nil => rfl
  | cons x xs ih =>
    by_cases h : p x = true
    · simp [List.filter, h, ← ih]
      omega
    · have h2 : p x = false := by simpa using h
      simp [List.filter, h2, ← ih]
      omega

/-!  ## C2: order contiguity and stability after delete / clearCompleted  -/

/-- A task with a non-contiguous order value and `completed = false`,
as a reorder of a filtered subset can leave behind. -/
def tOrderFive : Task :=
  { id := "a", title := "t", due := "", completed := false, createdAt := "c", order := 5 }

/-- C2 counterexample: when no task is completed, the Clear-Completed
handler returns before reindexing, so a surviving non-contiguous order
value (here `5`) survives unchanged: after this `clearCompleted` the
orders are not `{0,...,N-1}`. -/
theorem c2_counterexample :
    (clearCompletedClick { tasks := [tOrderFive], stored := .absent }).tasks.map Task.order ≠
      (List.range
        (clearCompletedClick { tasks := [tOrderFive], stored := .absent }).tasks.length).map
        (fun k : Nat => (k : Int)) := by
  decide

/-- C2 (amended): after any delete, and after any clearCompleted that
finds at least one completed task, the survivors' order values are
exactly `0..N-1` assigned positionally, the surviving records are
preserved, and the reindexing respects the survivors' prior order
values (non-decreasing prior pairs keep their relative order; a
strictly smaller prior order ends up strictly earlier).  A
clearCompleted with no completed task returns without reindexing. -/
theorem c2_amended (s : AppState) (id : String) :
    ReindexSpec (s.tasks.filter (fun t => t.id != id)) (deleteTaskApp id s).tasks ∧
    (s.tasks.any (fun t => t.completed) = true →
      ReindexSpec (s.tasks.filter (fun t => !t.completed)) (clearCompletedClick s).tasks) := by
  constructor
  · exact reindexSpec_reindexOrder _
  · intro h
    unfold clearCompletedClick
    rw [if_pos h]
    exact reindexSpec_reindexOrder _

/-- A completed task used in concrete instances. -/
def tCompleted : Task :=
  { id := "d", title := "t2", due := "", completed := true, createdAt := "c3", order := 2 }

/-- Concrete instance of `c2_amended`: clearing with one completed task
present reindexes the surviving task. -/
theorem c2_amended_witness :
    ReindexSpec
      ((AppState.mk [tOrderFive, tCompleted] .absent).tasks.filter (fun t => !t.completed))
      (clearCompletedClick (AppState.mk [tOrderFive, tCompleted] .absent)).tasks :=
  (c2_amended (AppState.mk [tOrderFive, tCompleted] .absent) "x").2 (by decide)

/-!  ## C7: clearCompleted's effect and return count  -/

/-- An uncompleted task with a contiguous order, used for the
no-completed-tasks instance. -/
def tPlain : Task :=
  { id := "p", title := "t", due := "", completed := false, createdAt := "c", order := 0 }

/-- C7 counterexample: with no completed task the Clear-Completed
handler returns immediately, so nothing is persisted: the storage cell
(here still absent) does not hold the serialized collection afterwards,
refuting "clearCompleted removes ..., reindexes ..., persists" for
every collection. -/
theorem c7_counterexample :
    (clearCompletedClick { tasks := [tPlain], stored := .absent }).stored ≠
      saveTasks (clearCompletedClick { tasks := [tPlain], stored := .absent }).tasks :=
  fun h => nomatch h

/-- C7 (amended): when at least one task is completed, clearCompleted
removes exactly the completed tasks (the survivors are the uncompleted
records), reindexes the survivors' orders to `0..N-1`, persists the new
collection, and the number of removed tasks is the number of completed
tasks; when no task is completed it is a complete no-op (nothing
reindexed, nothing persisted), so the number removed is 0. -/
theorem c7_amended (s : AppState) :
    ((∀ t ∈ s.tasks, t.completed = false) → clearCompletedClick s = s) ∧
    (s.tasks.any (fun t => t.completed) = true →
      List.Perm ((clearCompletedClick s).tasks.map strip)
        ((s.tasks.filter (fun t => !t.completed)).map strip) ∧
      (clearCompletedClick s).tasks.map Task.order =
        (List.range (clearCompletedClick s).tasks.length).map (fun k : Nat => (k : Int)) ∧
      (clearCompletedClick s).stored = saveTasks (clearCompletedClick s).tasks ∧
      s.tasks.length - (clearCompletedClick s).tasks.length =
        (s.tasks.filter (fun t => t.completed)).length) := by
  constructor
  · intro h
    unfold clearCompletedClick
    rw [if_neg]
    simp only [List.any_eq_true, not_exists]
    intro t
    rw [not_and]
    intro ht
    simp [h t ht]
  · intro h
    have hspec := reindexSpec_reindexOrder (s.tasks.filter (fun t => !t.completed))
    obtain ⟨hlen, horders, hperm, _, _⟩ := hspec
    have hclick : clearCompletedClick s =
        { tasks := reindexOrder (s.tasks.filter (fun t => !t.completed)),
          stored := saveTasks (reindexOrder (s.tasks.filter (fun t => !t.completed))) } := by
      unfold clearCompletedClick
      rw [if_pos h]
    rw [hclick]
    refine ⟨hperm, ?_, rfl, ?_⟩
    · rw [horders, hlen]
    · rw [hlen, ← filter_partition_length (fun t => t.completed) s.tasks]
      have : (s.tasks.filter (fun t => !t.completed)) =
          (s.tasks.filter (fun t => !(fun u : Task => u.completed) t)) := rfl
      omega

/-- Concrete instance of `c7_amended`: with one completed and one
uncompleted task, exactly one task is removed. -/
theorem c7_amended_witness :
    (AppState.mk [tPlain, tCompleted] .absent).tasks.length -
      (clearCompletedClick (AppState.mk [tPlain, tCompleted] .absent)).tasks.length =
      ((AppState.mk [tPlain, tCompleted] .absent).tasks.filter (fun t => t.completed)).length :=
  ((c7_amended (AppState.mk [tPlain, tCompleted] .absent)).2 (by decide)).2.2.2

/-!  ## C10: deleting an unknown id still reindexes and persists  -/

/-- Two tasks with duplicate order values, as a reorder of a filtered
subset leaves behind. -/
def tDupA : Task :=
  { id := "x1", title := "t", due := "", completed := false, createdAt := "c", order := 0 }

/-- Second task sharing order `0` with `tDupA`. -/
def tDupB : Task :=
  { id := "x2", title := "u", due := "", completed := false, createdAt := "c", order := 0 }

/-- C10: deleting an id that matches no task removes nothing — the
records survive unchanged up to their order values — but the collection
is still sorted by prior order, reassigned the contiguous orders
`0..N-1`, and persisted; concretely, deleting the unknown id `"ghost"`
from a collection with duplicate orders `[0, 0]` (as left by a
filtered-subset reorder) rewrites the stored orders to `[0, 1]`. -/
theorem c10_delete_unknown (s : AppState) (id : String)
    (h : ∀ t ∈ s.tasks, t.id ≠ id) :
    List.Perm ((deleteTaskApp id s).tasks.map strip) (s.tasks.map strip) ∧
    (deleteTaskApp id s).tasks.map Task.order =
      (List.range (deleteTaskApp id s).tasks.length).map (fun k : Nat => (k : Int)) ∧
    (deleteTaskApp id s).stored = saveTasks (deleteTaskApp id s).tasks ∧
    ((deleteTaskApp "ghost" { tasks := [tDupA, tDupB], stored := .absent }).tasks.map
        Task.order = [0, 1] ∧
      tDupA.order = tDupB.order) := by
  have hfilter : s.tasks.filter (fun t => t.id != id) = s.tasks := by
    rw [List.filter_eq_self]
    intro t ht
    simpa using h t ht
  have hspec := reindexSpec_reindexOrder (s.tasks.filter (fun t => t.id != id))
  obtain ⟨hlen, horders, hperm, _, _⟩ := hspec
  refine ⟨?_, ?_, rfl, by decide, by decide⟩
  · have : (s.tasks.filter (fun t => t.id != id)).map strip = s.tasks.map strip := by
      rw [hfilter]
    exact this ▸ hperm
  · show (reindexOrder (s.tasks.filter (fun t => t.id != id))).map Task.order =
      (List.range (reindexOrder (s.tasks.filter (fun t => t.id != id))).length).map
        (fun k : Nat => (k : Int))
    rw [horders, hlen]

/-- Concrete instance of `c10_delete_unknown`: deleting an absent id
keeps the records (up to order values). -/
theorem c10_delete_unknown_witness :
    List.Perm ((deleteTaskApp "zzz" { tasks := [tDated], stored := .absent }).tasks.map strip)
      ([tDated].map strip) :=
  (c10_delete_unknown { tasks := [tDated], stored := .absent } "zzz" (by decide)).1

/-!  ## C5: what a successful create produces  -/

theorem foldl_max_le_init (l : List Task) (a : Int) :
    a ≤ l.foldl (fun m x => max m x.order) a := by
  induction l generalizing a with
  | nil => exact le_refl a
  | cons t ts ih => exact le_trans (le_max_left a t.order) (ih (max a t.order))

theorem foldl_max_mem : ∀ (l : List Task) (a : Int) (x : Task), x ∈ l →
    x.order ≤ l.foldl (fun m t => max m t.order) a := by
  intro l
  induction l with
  | nil => intro a x hx; cases hx
  | cons t ts ih =>
    intro a x hx
    rcases List.mem_cons.mp hx with h | h
    · subst h
      exact le_trans (le_max_right a x.order) (foldl_max_le_init ts _)
    · exact ih _ x h

theorem foldl_max_attained : ∀ (l : List Task) (a : Int),
    l.foldl (fun m t => max m t.order) a = a ∨
    ∃ x ∈ l, l.foldl (fun m t => max m t.order) a = x.order := by
  intro l
  induction l with
  | nil => intro a; exact Or.inl rfl
  | cons t ts ih =>
    intro a
    rcases ih (max a t.order) with h | ⟨x, hx, hfx⟩
    · by_cases hc : a ≤ t.order
      · right
        exact ⟨t, List.mem_cons_self t ts, by rw [List.foldl_cons, h, max_eq_right hc]⟩
      · left
        rw [List.foldl_cons, h, max_eq_left (le_of_not_le hc)]
    · right
      exact ⟨x, List.mem_cons_of_mem t hx, by rw [List.foldl_cons, hfx]⟩

theorem nextOrder_gt (tasks : List Task) (u : Task) (hu : u ∈ tasks) :
    u.order < nextOrder tasks := by
  match tasks with
  | [] => cases hu
  | t :: ts =>
    show u.order < (ts.foldl (fun m x => max m x.order) t.order) + 1
    rcases List.mem_cons.mp hu with h | h
    · have := foldl_max_le_init ts u.order
      rw [h] at this ⊢
      omega
    · have := foldl_max_mem ts t.order u h
      omega

theorem nextOrder_attained (tasks : List Task) (h : tasks ≠ []) :
    ∃ u ∈ tasks, nextOrder tasks = u.order + 1 := by
  match tasks with
  | [] => exact absurd rfl h
  | t :: ts =>
    show ∃ u ∈ t :: ts, (ts.foldl (fun m x => max m x.order) t.order) + 1 = u.order + 1
    rcases foldl_max_attained ts t.order with hf | ⟨x, hx, hfx⟩
    · exact ⟨t, List.mem_cons_self t ts, by rw [hf]⟩
    · exact ⟨x, List.mem_cons_of_mem t hx, by rw [hfx]⟩

theorem createMany_ids (ids : Nat → String) (now : String) :
    ∀ (inputs : List (String × String)) (k : Nat) (s : AppState),
      (createMany ids now k inputs s).tasks.map Task.id =
        s.tasks.map Task.id ++ (List.range' k inputs.length).map ids := by
  intro inputs
  induction inputs with
  | nil => intro k s; simp [createMany]
  | cons p rest ih =>
    intro k s
    obtain ⟨title, due⟩ := p
    show (createMany ids now (k + 1) rest (addTaskApp (ids k) now title due s)).tasks.map
        Task.id = _
    rw [ih]
    simp [addTaskApp, addTask, List.range'_succ]

/-- C5 counterexample: the id of a created task is whatever `uid()`
returns, and `uid()` (`Math.random().toString(36).slice(2) +
Date.now().toString(36)`) carries no mathematical freshness guarantee:
under an id supply that repeats a value — which the code cannot
exclude — two creates yield equal ids, refuting unconditional pairwise
distinctness. -/
theorem c5_counterexample :
    ¬ List.Pairwise (fun a b => a ≠ b)
      ((createMany (fun _ => "dup") "n" 0 [("a", ""), ("b", "")]
        { tasks := [], stored := .absent }).tasks.map Task.id) := by
  decide

/-- C5 (amended): every successful create appends exactly one new task
carrying the supplied fresh id, `createdAt = now`, the given title and
due date, `completed = false`, and an order strictly above every
existing order, equal to some existing order plus 1 (or 0 on an empty
collection); the collection is then persisted, the appended record
being the returned task.  The ids of a sequence of creates are pairwise
distinct provided the id supply never repeats a value (which `uid()`
does not guarantee). -/
theorem c5_create (id now title due : String) (tasks : List Task) :
    (∃ t2 : Task,
      addTask id now title due tasks = tasks ++ [t2] ∧
      t2.id = id ∧ t2.createdAt = now ∧ t2.title = title ∧ t2.due = due ∧
      t2.completed = false ∧
      (tasks = [] → t2.order = 0) ∧
      (∀ u ∈ tasks, u.order < t2.order) ∧
      (tasks ≠ [] → ∃ u ∈ tasks, t2.order = u.order + 1)) ∧
    (∀ s : AppState, s.tasks = tasks →
      (addTaskApp id now title due s).tasks = addTask id now title due tasks ∧
      (addTaskApp id now title due s).stored =
        saveTasks (addTask id now title due tasks)) ∧
    (∀ (ids : Nat → String) (inputs : List (String × String)),
      (∀ m n : Nat, ids m = ids n → m = n) →
      List.Pairwise (fun a b => a ≠ b)
        ((createMany ids now 0 inputs { tasks := [], stored := .absent }).tasks.map
          Task.id)) := by
  refine ⟨⟨_, rfl, rfl, rfl, rfl, rfl, rfl, ?_, ?_, ?_⟩, ?_, ?_⟩
  · intro h
    subst h
    rfl
  · intro u hu
    exact nextOrder_gt tasks u hu
  · intro h
    exact nextOrder_attained tasks h
  · intro s hs
    constructor
    · simp [addTaskApp, hs]
    · simp [addTaskApp, hs]
  · intro ids inputs hinj
    rw [createMany_ids]
    simp only [List.map_nil, List.nil_append]
    exact (List.nodup_range' 0 inputs.length).map (fun m n h => hinj m n h)

/-- Concrete instance of `c5_create`: with an injective supply, two
creates yield distinct ids. -/
theorem c5_create_witness :
    List.Pairwise (fun a b => a ≠ b)
      ((createMany (fun n => String.mk (List.replicate n 'i')) "n" 0 [("a", ""), ("b", "")]
        { tasks := [], stored := .absent }).tasks.map Task.id) :=
  (c5_create "x" "n" "t" "" []).2.2 (fun n => String.mk (List.replicate n 'i'))
    [("a", ""), ("b", "")]
    (fun m n h => by
      have := congrArg (fun s : String => s.data.length) h
      simpa using this)

/-!  ## C8: update's not-found path and frame conditions  -/

/-- C8: `update` with an absent id signals NotFound (modelled as `none`)
and performs no mutation — the application state, storage included, is
unchanged; with a present id (first match at position `i`) and a patch
over title/due/completed, the updated record keeps its `order`,
`createdAt` and `id`, and every other task is untouched. -/
theorem c8_update (id : String) (p : Patch) (tasks : List Task) :
    ((∀ t ∈ tasks, t.id ≠ id) →
      updateTask id p tasks = none ∧
      (∀ s : AppState, s.tasks = tasks → updateApp id p s = s)) ∧
    (∀ i : Nat, i < tasks.length → (tasks.getD i default).id = id →
      (∀ j : Nat, j < i → (tasks.getD j default).id ≠ id) →
      ∃ ts2 : List Task,
        updateTask id p tasks = some ts2 ∧
        ts2.length = tasks.length ∧
        (∀ j : Nat, j < tasks.length → j ≠ i →
          ts2.getD j default = tasks.getD j default) ∧
        (ts2.getD i default).order = (tasks.getD i default).order ∧
        (ts2.getD i default).createdAt = (tasks.getD i default).createdAt ∧
        (ts2.getD i default).id = (tasks.getD i default).id) := by
  constructor
  · intro h
    have hfind : tasks.findIdx? (fun t => t.id == id) = none := by
      rw [List.findIdx?_eq_none_iff]
      intro t ht
      simpa using h t ht
    have hup : updateTask id p tasks = none := by
      unfold updateTask
      rw [hfind]
    refine ⟨hup, ?_⟩
    intro s hs
    unfold updateApp
    rw [hs, hup]
  · intro i hi hpi hbefore
    have hfind : tasks.findIdx? (fun t => t.id == id) = some i := by
      rw [List.findIdx?_eq_some_iff_getElem]
      refine ⟨hi, ?_, ?_⟩
      · rw [← List.getD_eq_getElem tasks default hi]
        simpa using hpi
      · intro j hji
        have hj : j < tasks.length := lt_trans hji hi
        rw [← List.getD_eq_getElem tasks default hj]
        simpa using hbefore j hji
    refine ⟨tasks.set i (applyPatch (tasks.getD i default) p), ?_, ?_, ?_, ?_, ?_, ?_⟩
    · unfold updateTask
      rw [hfind]
    · exact List.length_set tasks i _
    · intro j hj hji
      have hj2 : j < (tasks.set i (applyPatch (tasks.getD i default) p)).length := by
        rw [List.length_set]; exact hj
      rw [List.getD_eq_getElem _ default hj2, List.getD_eq_getElem tasks default hj]
      exact List.getElem_set_ne (fun h => hji h.symm) hj2
    · have hi2 : i < (tasks.set i (applyPatch (tasks.getD i default) p)).length := by
        rw [List.length_set]; exact hi
      rw [List.getD_eq_getElem _ default hi2, List.getElem_set_self hi2]
      rfl
    · have hi2 : i < (tasks.set i (applyPatch (tasks.getD i default) p)).length := by
        rw [List.length_set]; exact hi
      rw [List.getD_eq_getElem _ default hi2, List.getElem_set_self hi2]
      rfl
    · have hi2 : i < (tasks.set i (applyPatch (tasks.getD i default) p)).length := by
        rw [List.length_set]; exact hi
      rw [List.getD_eq_getElem _ default hi2, List.getElem_set_self hi2]
      rfl

/-- Concrete instance of `c8_update`: updating the title of the only
task leaves its `order` unchanged. -/
theorem c8_update_witness :
    ∃ ts2 : List Task,
      updateTask "1" { title := some "z", due := none, completed := none } [tDated] =
        some ts2 ∧
      ts2.length = [tDated].length ∧
      (∀ j : Nat, j < [tDated].length → j ≠ 0 →
        ts2.getD j default = [tDated].getD j default) ∧
      (ts2.getD 0 default).order = ([tDated].getD 0 default).order ∧
      (ts2.getD 0 default).createdAt = ([tDated].getD 0 default).createdAt ∧
      (ts2.getD 0 default).id = ([tDated].getD 0 default).id :=
  (c8_update "1" { title := some "z", due := none, completed := none } [tDated]).2 0
    (by decide) (by decide) (fun j hj => absurd hj (Nat.not_lt_zero j))

/-!  ## C6: the reorder (dragend) contract  -/

/-- Index of the first occurrence of `x` in `l` — the reading of "the
id's index within the sequence" for sequences where `x` occurs. -/
def idxIn (x : String) : List String → Nat
  | [] => 0
  | y :: ys => if x = y then 0 else idxIn x ys + 1

theorem setOrderFirst_map_id (id : String) (k : Int) :
    ∀ ts : List Task, (setOrderFirst id k ts).map Task.id = ts.map Task.id := by
  intro ts
  induction ts with
  | nil => rfl
  | cons t rest ih =>
    by_cases hc : t.id = id
    · simp [setOrderFirst, hc]
    · simp [setOrderFirst, hc, ih]

theorem setOrderFirst_length (id : String) (k : Int) (ts : List Task) :
    (setOrderFirst id k ts).length = ts.length := by
  have := congrArg List.length (setOrderFirst_map_id id k ts)
  simpa using this

theorem setOrderFirst_getD (id : String) (k : Int) :
    ∀ ts : List Task, (ts.map Task.id).Nodup → ∀ i : Nat, i < ts.length →
      (setOrderFirst id k ts).getD i default =
        (if (ts.getD i default).id = id then { ts.getD i default with order := k }
         else ts.getD i default) := by
  intro ts
  induction ts with
  | nil => intro _ i hi; simp at hi
  | cons t rest ih =>
    intro hnd i hi
    rw [List.map_cons] at hnd
    have hnd2 := List.nodup_cons.mp hnd
    by_cases hc : t.id = id
    · show (if t.id = id then { t with order := k } :: rest
        else t :: setOrderFirst id k rest).getD i default = _
      rw [if_pos hc]
      cases i with
      | zero => simp [hc]
      | succ j =>
        have hj : j < rest.length := by simpa using hi
        rw [List.getD_cons_succ, List.getD_cons_succ, if_neg]
        intro habs
        apply hnd2.1
        refine List.mem_map.mpr ⟨rest.getD j default, ?_, ?_⟩
        · rw [List.getD_eq_getElem rest default hj]
          exact rest.getElem_mem hj
        · rw [habs, hc]
    · show (if t.id = id then { t with order := k } :: rest
        else t :: setOrderFirst id k rest).getD i default = _
      rw [if_neg hc]
      cases i with
      | zero => simp [setOrderFirst, hc]
      | succ j =>
        rw [List.getD_cons_succ, List.getD_cons_succ]
        exact ih hnd2.2 j (by simpa using hi)

theorem reorderFrom_length : ∀ (ids : List String) (k : Nat) (ts : List Task),
    (reorderFrom k ids ts).length = ts.length := by
  intro ids
  induction ids with
  | nil => intro k ts; rfl
  | cons id rest ih =>
    intro k ts
    show (reorderFrom (k + 1) rest (setOrderFirst id (k : Int) ts)).length = _
    rw [ih, setOrderFirst_length]

theorem reorderFrom_getD : ∀ (ids : List String) (k : Nat) (ts : List Task),
    ids.Nodup → (ts.map Task.id).Nodup → ∀ i : Nat, i < ts.length →
      (reorderFrom k ids ts).getD i default =
        (if (ts.getD i default).id ∈ ids
         then { ts.getD i default with
                order := ((k + idxIn (ts.getD i default).id ids : Nat) : Int) }
         else ts.getD i default) := by
  intro ids
  induction ids with
  | nil =>
    intro k ts _ _ i hi
    simp [reorderFrom]
  | cons id rest ih =>
    intro k ts hids hts i hi
    have hids2 := List.nodup_cons.mp hids
    have hts2 : ((setOrderFirst id (k : Int) ts).map Task.id).Nodup := by
      rw [setOrderFirst_map_id]; exact hts
    have hi2 : i < (setOrderFirst id (k : Int) ts).length := by
      rw [setOrderFirst_length]; exact hi
    show (reorderFrom (k + 1) rest (setOrderFirst id (k : Int) ts)).getD i default = _
    rw [ih (k + 1) _ hids2.2 hts2 i hi2, setOrderFirst_getD id _ ts hts i hi]
    have hidx0 : (ts.getD i default).id = id →
        idxIn (ts.getD i default).id (id :: rest) = 0 := by
      intro hc
      show (if (ts.getD i default).id = id then 0
        else idxIn (ts.getD i default).id rest + 1) = 0
      rw [if_pos hc]
    have hidxS : (ts.getD i default).id ≠ id →
        idxIn (ts.getD i default).id (id :: rest) =
          idxIn (ts.getD i default).id rest + 1 := by
      intro hc
      show (if (ts.getD i default).id = id then 0
        else idxIn (ts.getD i default).id rest + 1) = _
      rw [if_neg hc]
    by_cases hc : (ts.getD i default).id = id
    · rw [if_pos hc]
      have hnotin : ({ ts.getD i default with order := (k : Int) } : Task).id ∉ rest := by
        show (ts.getD i default).id ∉ rest
        rw [hc]
        exact hids2.1
      rw [if_neg hnotin, if_pos (List.mem_cons.mpr (Or.inl hc)), hidx0 hc, Nat.add_zero]
    · rw [if_neg hc]
      by_cases hm : (ts.getD i default).id ∈ rest
      · rw [if_pos hm, if_pos (List.mem_cons.mpr (Or.inr hm)), hidxS hc]
        have harith : k + 1 + idxIn (ts.getD i default).id rest =
            k + (idxIn (ts.getD i default).id rest + 1) := by omega
        rw [harith]
      · rw [if_neg hm, if_neg]
        intro habs
        rcases List.mem_cons.mp habs with h | h
        · exact hc h
        · exact hm h

/-- C6 counterexample: with the id sequence `["a","a"]` the loop assigns
index 0 and then index 1 to the same task, so the final order is the
index of the last occurrence, not "the id's index within the sequence"
(its index, i.e. the first occurrence, 0). -/
theorem c6_counterexample :
    (reorder ["a", "a"] [tOrderFive]).map Task.order ≠
      [(idxIn "a" ["a", "a"] : Int)] := by
  decide

/-- C6 (amended): for a duplicate-free id sequence (which the DOM
produces — with a duplicated id each occurrence assigns in turn, so the
last occurrence's index wins, as the counterexample shows): every id
with a matching task sets exactly that task's order to the id's index
in the sequence and changes nothing else of it; ids without a matching
task are ignored without error, though they still occupy their index;
tasks not named in the sequence are completely untouched; and the
dragend handler persists the collection after the assignments. -/
theorem c6_reorder (ids : List String) (tasks : List Task) (s : AppState)
    (hids : ids.Nodup) (htasks : (tasks.map Task.id).Nodup) :
    (reorder ids tasks).length = tasks.length ∧
    (∀ i : Nat, i < tasks.length →
      ((tasks.getD i default).id ∈ ids →
        (reorder ids tasks).getD i default =
          { tasks.getD i default with
            order := ((idxIn (tasks.getD i default).id ids : Nat) : Int) }) ∧
      ((tasks.getD i default).id ∉ ids →
        (reorder ids tasks).getD i default = tasks.getD i default)) ∧
    (s.tasks = tasks →
      (dragendApp ids s).tasks = reorder ids tasks ∧
      (dragendApp ids s).stored = saveTasks (reorder ids tasks)) := by
  refine ⟨reorderFrom_length ids 0 tasks, ?_, ?_⟩
  · intro i hi
    have h := reorderFrom_getD ids 0 tasks hids htasks i hi
    constructor
    · intro hm
      rw [show reorder ids tasks = reorderFrom 0 ids tasks from rfl, h, if_pos hm]
      norm_num
    · intro hm
      rw [show reorder ids tasks = reorderFrom 0 ids tasks from rfl, h, if_neg hm]
  · intro hs
    exact ⟨by simp [dragendApp, hs], by simp [dragendApp, hs]⟩

/-- Concrete instance of `c6_reorder`: reordering two tasks by the
reversed id sequence keeps the collection size. -/
theorem c6_reorder_witness :
    (reorder ["x2", "x1"] [tDupA, tDupB]).length = [tDupA, tDupB].length :=
  (c6_reorder ["x2", "x1"] [tDupA, tDupB] { tasks := [], stored := .absent }
    (by decide) (by decide)).1

/-!  ## C4: defensive behaviour of loadTasks  -/

theorem dropWhile_head_false {α : Type} (p : α → Bool) :
    ∀ (l : List α) (c : α), (l.dropWhile p).head? = some c → p c = false := by
  intro l
  induction l with
  | nil => intro c h; simp [List.dropWhile] at h
  | cons a t ih =>
    intro c h
    rw [List.dropWhile_cons] at h
    by_cases hp : p a = true
    · rw [if_pos hp] at h
      exact ih c h
    · rw [if_neg hp] at h
      simp only [List.head?_cons, Option.some.injEq] at h
      rw [← h]
      simpa using hp

theorem dropWhile_suffix_ex {α : Type} (p : α → Bool) :
    ∀ l : List α, ∃ pre, l = pre ++ l.dropWhile p := by
  intro l
  induction l with
  | nil => exact ⟨[], rfl⟩
  | cons a t ih =>
    by_cases hp : p a = true
    · obtain ⟨pre, hpre⟩ := ih
      refine ⟨a :: pre, ?_⟩
      rw [List.dropWhile_cons, if_pos hp, List.cons_append, ← hpre]
    · refine ⟨[], ?_⟩
      rw [List.dropWhile_cons, if_neg hp, List.nil_append]

theorem getLast?_dropWhile_of_ne_nil {α : Type} (p : α → Bool) (l : List α)
    (h : l.dropWhile p ≠ []) : (l.dropWhile p).getLast? = l.getLast? := by
  obtain ⟨pre, hpre⟩ := dropWhile_suffix_ex p l
  conv_rhs => rw [hpre]
  rw [List.getLast?_append_of_ne_nil pre h]

/-- The first character of a trimmed string is not whitespace. -/
theorem jsTrim_head_not_ws (s : String) (c : Char)
    (h : (jsTrim s).data.head? = some c) : c.isWhitespace = false := by
  have hdata : (jsTrim s).data =
      ((s.data.dropWhile Char.isWhitespace).reverse.dropWhile Char.isWhitespace).reverse :=
    rfl
  rw [hdata, List.head?_reverse] at h
  have hne : (s.data.dropWhile Char.isWhitespace).reverse.dropWhile Char.isWhitespace ≠ [] := by
    intro habs
    rw [habs] at h
    simp at h
  rw [getLast?_dropWhile_of_ne_nil _ _ hne, List.getLast?_reverse] at h
  exact dropWhile_head_false _ _ c h

/-- The last character of a trimmed string is not whitespace. -/
theorem jsTrim_getLast_not_ws (s : String) (c : Char)
    (h : (jsTrim s).data.getLast? = some c) : c.isWhitespace = false := by
  have hdata : (jsTrim s).data =
      ((s.data.dropWhile Char.isWhitespace).reverse.dropWhile Char.isWhitespace).reverse :=
    rfl
  rw [hdata, List.getLast?_reverse] at h
  exact dropWhile_head_false _ _ c h

theorem loadMap_length (f : Nat → String) (now : String) :
    ∀ (i : Nat) (es : List JValue), (loadMap f now i es).length = es.length := by
  intro i es
  induction es generalizing i with
  | nil => rfl
  | cons e rest ih => simp [loadMap, ih]

theorem loadMap_getD (f : Nat → String) (now : String) :
    ∀ (es : List JValue) (i j : Nat), j < es.length →
      (loadMap f now i es).getD j default =
        normalizeRecord (f (i + j)) now (i + j) (es.getD j .null) := by
  intro es
  induction es with
  | nil => intro i j hj; simp at hj
  | cons e rest ih =>
    intro i j hj
    cases j with
    | zero =>
      show (normalizeRecord (f i) now i e :: loadMap f now (i + 1) rest).getD 0 default = _
      rw [List.getD_cons_zero, List.getD_cons_zero, Nat.add_zero]
    | succ j2 =>
      show (normalizeRecord (f i) now i e ::
        loadMap f now (i + 1) rest).getD (j2 + 1) default = _
      rw [List.getD_cons_succ, List.getD_cons_succ, ih (i + 1) j2 (by simpa using hj)]
      have harith : i + 1 + j2 = i + (j2 + 1) := by omega
      rw [harith]

/-- C4 counterexample: an array whose element is JSON `null` makes the
per-record property access throw inside the `try`, so the whole load
falls back to `[]` — the record is dropped, not normalized: the one
stored record yields zero loaded records. -/
theorem c4_counterexample :
    (loadTasks (fun _ => "u") "n" (.val (.arr [JValue.null]))).length = 0 ∧
    [JValue.null].length = 1 :=
  ⟨rfl, rfl⟩

/-- C4 (amended): `loadTasks` never raises (it is total): an absent
cell, unparseable text, or a non-array parse yield the empty
collection; an array none of whose elements is `null` is normalized
record by record — a falsy (in particular missing) id is replaced by
the fresh one, the title is coerced to text with no leading or trailing
whitespace, a falsy due defaults to absent (`""`), completed is the
truthiness of the stored field, a falsy createdAt defaults to the
current time, and a non-numeric order defaults to the record's
position.  (An array containing `null` instead makes the whole load
fall back to `[]`, as the counterexample shows.) -/
theorem c4_load (f : Nat → String) (now : String) :
    loadTasks f now .absent = [] ∧
    loadTasks f now .invalid = [] ∧
    (∀ j : JValue, (∀ es, j ≠ .arr es) → loadTasks f now (.val j) = []) ∧
    (∀ es : List JValue, (∀ e ∈ es, isNull e = false) →
      (loadTasks f now (.val (.arr es))).length = es.length ∧
      (∀ i : Nat, i < es.length →
        (loadTasks f now (.val (.arr es))).getD i default =
          normalizeRecord (f i) now i (es.getD i .null))) ∧
    (∀ (fresh : String) (i : Nat) (j : JValue),
      (truthy (jGet j "id") = false →
        (normalizeRecord fresh now i j).id = .str fresh) ∧
      (∀ c : Char, (normalizeRecord fresh now i j).title.data.head? = some c →
        c.isWhitespace = false) ∧
      (∀ c : Char, (normalizeRecord fresh now i j).title.data.getLast? = some c →
        c.isWhitespace = false) ∧
      (truthy (jGet j "due") = false → (normalizeRecord fresh now i j).due = .str "") ∧
      ((normalizeRecord fresh now i j).completed = truthy (jGet j "completed")) ∧
      (truthy (jGet j "createdAt") = false →
        (normalizeRecord fresh now i j).createdAt = .str now) ∧
      ((∀ n : Int, jGet j "order" ≠ .num n) →
        (normalizeRecord fresh now i j).order = (i : Int))) := by
  refine ⟨rfl, rfl, ?_, ?_, ?_⟩
  · intro j hj
    cases j with
    | null => rfl
    | bool b => rfl
    | num n => rfl
    | str s => rfl
    | arr es => exact absurd rfl (hj es)
    | obj fs => rfl
  · intro es hnull
    have hcond : ¬ (es.any isNull = true) := by
      simp only [List.any_eq_true, not_exists]
      intro e
      rw [not_and]
      intro he
      simp [hnull e he]
    constructor
    · show (if es.any isNull = true then [] else loadMap f now 0 es).length = es.length
      rw [if_neg hcond]
      exact loadMap_length f now 0 es
    · intro i hi
      show (if es.any isNull = true then [] else loadMap f now 0 es).getD i default = _
      rw [if_neg hcond, loadMap_getD f now es 0 i hi, Nat.zero_add]
  · intro fresh i j
    refine ⟨?_, ?_, ?_, ?_, rfl, ?_, ?_⟩
    · intro h
      show orTruthy (jGet j "id") (.str fresh) = .str fresh
      unfold orTruthy
      rw [h]
      rfl
    · intro c h
      exact jsTrim_head_not_ws _ c h
    · intro c h
      exact jsTrim_getLast_not_ws _ c h
    · intro h
      show orTruthy (jGet j "due") (.str "") = .str ""
      unfold orTruthy
      rw [h]
      rfl
    · intro h
      show orTruthy (jGet j "createdAt") (.str now) = .str now
      unfold orTruthy
      rw [h]
      rfl
    · intro h
      show (match jGet j "order" with
        | .num n => n
        | _ => (i : Int)) = (i : Int)
      cases hg : jGet j "order" with
      | num n => exact absurd hg (h n)
      | null => rfl
      | bool _ => rfl
      | str _ => rfl
      | arr _ => rfl
      | obj _ => rfl

/-- Concrete instance of `c4_load`: a parsed non-array (the number 5)
loads as the empty collection. -/
theorem c4_load_witness :
    loadTasks (fun _ => "u") "n" (.val (.num 5)) = [] :=
  (c4_load (fun _ => "u") "n").2.2.1 (.num 5) (fun _ h => nomatch h)

/-!  ## C9: the save/load round trip  -/

theorem jGet_encode_id (t : Task) : jGet (encodeTask t) "id" = .str t.id := rfl

theorem jGet_encode_title (t : Task) : jGet (encodeTask t) "title" = .str t.title := rfl

theorem jGet_encode_due (t : Task) : jGet (encodeTask t) "due" = .str t.due := rfl

theorem jGet_encode_completed (t : Task) :
    jGet (encodeTask t) "completed" = .bool t.completed := rfl

theorem jGet_encode_createdAt (t : Task) :
    jGet (encodeTask t) "createdAt" = .str t.createdAt := rfl

theorem jGet_encode_order (t : Task) : jGet (encodeTask t) "order" = .num t.order := rfl

theorem orTruthy_str_self (s : String) : orTruthy (.str s) (.str "") = .str s := by
  unfold orTruthy
  by_cases h : s = ""
  · subst h
    rfl
  · rw [if_pos]
    show (s != "") = true
    simpa using h

theorem orTruthy_of_ne (s fb : String) (h : s ≠ "") :
    orTruthy (.str s) (.str fb) = .str s := by
  unfold orTruthy
  rw [if_pos]
  show (s != "") = true
  simpa using h

theorem jsToString_str (s : String) : jsToString (.str s) = s := by
  unfold jsToString
  rfl

theorem normalizeRecord_encode (fresh now : String) (i : Nat) (t : Task)
    (hid : t.id ≠ "") (htitle : jsTrim t.title = t.title) (hcreated : t.createdAt ≠ "") :
    normalizeRecord fresh now i (encodeTask t) = rawOfTask t := by
  unfold normalizeRecord rawOfTask
  rw [jGet_encode_id, jGet_encode_title, jGet_encode_due, jGet_encode_completed,
    jGet_encode_createdAt, jGet_encode_order, orTruthy_of_ne _ _ hid,
    orTruthy_of_ne _ _ hcreated, orTruthy_str_self, orTruthy_str_self, jsToString_str,
    htitle]
  rfl

theorem encode_any_isNull (tasks : List Task) :
    (tasks.map encodeTask).any isNull = false := by
  induction tasks with
  | nil => rfl
  | cons t ts ih => simp [List.any_cons, encodeTask, isNull, ih]

theorem loadMap_encode (f : Nat → String) (now : String) :
    ∀ (tasks : List Task) (i : Nat),
      (∀ t ∈ tasks, t.id ≠ "" ∧ jsTrim t.title = t.title ∧ t.createdAt ≠ "") →
      loadMap f now i (tasks.map encodeTask) = tasks.map rawOfTask := by
  intro tasks
  induction tasks with
  | nil => intro i _; rfl
  | cons t ts ih =>
    intro i h
    show normalizeRecord (f i) now i (encodeTask t) ::
      loadMap f now (i + 1) (ts.map encodeTask) = rawOfTask t :: ts.map rawOfTask
    have ht := h t (List.mem_cons_self t ts)
    rw [normalizeRecord_encode (f i) now i t ht.1 ht.2.1 ht.2.2,
      ih (i + 1) (fun u hu => h u (List.mem_cons_of_mem t hu))]

/-- C9 counterexample: the empty string is a legitimate unique id under
the claim's well-formedness (unique ids, non-empty trimmed titles,
numeric orders), but it is falsy, so `loadTasks` replaces it with a
fresh `uid()`: the round trip does not reproduce the same id. -/
theorem c9_counterexample :
    saveLoad (fun _ => "u") "n"
      [{ id := "", title := "a", due := "", completed := false,
         createdAt := "c", order := 0 }] ≠
    [rawOfTask { id := "", title := "a", due := "", completed := false,
                 createdAt := "c", order := 0 }] := by
  intro h
  have h2 := congrArg (List.map RawTask.id) h
  have e1 : List.map RawTask.id (saveLoad (fun _ => "u") "n"
      [{ id := "", title := "a", due := "", completed := false,
         createdAt := "c", order := 0 }]) = [JValue.str "u"] := rfl
  have e2 : List.map RawTask.id
      [rawOfTask { id := "", title := "a", due := "", completed := false,
                   createdAt := "c", order := 0 }] = [JValue.str ""] := rfl
  rw [e1, e2] at h2
  simp at h2

/-- C9 (amended): for a collection whose ids are unique and non-empty
(and non-empty `createdAt` — both are automatic for app-created tasks,
whose ids come from `uid()` and whose `createdAt` is an ISO timestamp)
with non-empty trimmed titles, loading right after saving reproduces
the collection exactly: same ids, titles, due dates, completed flags,
createdAt values and order values. -/
theorem c9_round_trip (f : Nat → String) (now : String) (tasks : List Task)
    (_hids : (tasks.map Task.id).Nodup)
    (h : ∀ t ∈ tasks,
      t.id ≠ "" ∧ t.title ≠ "" ∧ jsTrim t.title = t.title ∧ t.createdAt ≠ "") :
    saveLoad f now tasks = tasks.map rawOfTask := by
  show (if (tasks.map encodeTask).any isNull = true then []
    else loadMap f now 0 (tasks.map encodeTask)) = tasks.map rawOfTask
  rw [if_neg (by simp [encode_any_isNull])]
  exact loadMap_encode f now tasks 0 (fun t ht => ⟨(h t ht).1, (h t ht).2.2.1, (h t ht).2.2.2⟩)

/-- Concrete instance of `c9_round_trip`: one well-formed task survives
the round trip unchanged. -/
theorem c9_round_trip_witness :
    saveLoad (fun _ => "u") "n" [tDated] = [tDated].map rawOfTask :=
  c9_round_trip (fun _ => "u") "n" [tDated] (by decide) (by decide)

end Todo
